import Mathlib

/-!
Verification of the qPCR standard-curve / copy-number repository
(src/curve_fit.py and src/curve_fit_2.py).

Python floats are modelled as exact rationals (`ℚ`) where the code only
uses field operations, and as reals (`ℝ`) where the code applies
transcendental functions (log10, non-integer powers).  Library calls
(scipy.stats.linregress, Bio.SeqUtils.molecular_weight, numpy
percentile) are modelled from their documented behaviour, noted at each
definition.  Fallible paths (library ValueError) are modelled with
`Except` / `Option`.
-/

open Classical

/-- Constant AVOGADRO from src/curve_fit.py line 13 and src/curve_fit_2.py
line 17: molecules per mole, written 6.022e23 in the source. -/
def AVOGADRO : ℚ := 6.022e23

/-- Constant AVERAGE_BP_WEIGHT from src/curve_fit.py line 14 and
src/curve_fit_2.py line 18: grams per mole per base pair. -/
def AVERAGE_BP_WEIGHT : ℚ := 650

/-- Function calc_base_copies_ng_length from src/curve_fit.py lines 18-22:
grams = conc_ng * 1e-9; moles = grams / (length_bp * AVERAGE_BP_WEIGHT);
result = moles * AVOGADRO.  The Python length_bp is an int, modelled as ℤ. -/
def calc_base_copies_ng_length (conc_ng : ℚ) (length_bp : ℤ) : ℚ :=
  let grams := conc_ng * 1e-9
  let moles := grams / ((length_bp : ℚ) * AVERAGE_BP_WEIGHT)
  moles * AVOGADRO

/-- Function calc_ng_length from src/curve_fit_2.py lines 28-31: the same
computation as calc_base_copies_ng_length, transcribed from the second
source variant. -/
def calc_ng_length (conc_ng : ℚ) (length_bp : ℤ) : ℚ :=
  let grams := conc_ng * 1e-9
  let moles := grams / ((length_bp : ℚ) * AVERAGE_BP_WEIGHT)
  moles * AVOGADRO

/-- The spec formula for the length-based copy number, written from the
spec sentence: conc_ng * 1e-9 / (length_bp * 650) * 6.022e23.  Declared
separately from the source transcriptions so the two can be compared. -/
def spec_copies_formula (conc_ng : ℚ) (length_bp : ℤ) : ℚ :=
  conc_ng * 1e-9 / ((length_bp : ℚ) * 650) * 6.022e23

/-- A standard point as built by the standards loop: its Copies and Ct
columns.  Both are plain Python floats, modelled as ℚ. -/
structure StandardPoint where
  copies : ℚ
  ct : ℚ
deriving DecidableEq, Repr

/-- The standards loop of src/curve_fit_2.py lines 90-100: for i in
range(points), dil = factor ** i, copies = base_copies / dil, default_ct =
start_ct + i * interval, ct = the widget value (modelled as an optional
override, defaulting to default_ct), appended in order of i.
src/curve_fit.py lines 113-128 is the same loop with factor fixed to 10. -/
def buildStandards (base_copies : ℚ) (factor : ℚ) (points : ℕ)
    (start_ct interval : ℚ) (overrides : ℕ → Option ℚ) : List StandardPoint :=
  (List.range points).map fun (i : ℕ) =>
    let dil := factor ^ i
    let copies := base_copies / dil
    let default_ct := start_ct + (i : ℚ) * interval
    let ct := (overrides i).getD default_ct
    ⟨copies, ct⟩

/-- The quality-control checks of src/curve_fit_2.py lines 163-166, as the
pair of emitted warnings: the first component is true iff the low-R²
warning is shown (rval**2 < r2_thresh), the second iff the slope warning
is shown (not (min_slope <= slope <= max_slope)). -/
def evaluate_quality (r_squared slope : ℚ) (min_slope max_slope r2_thresh : ℚ) :
    Bool × Bool :=
  (decide (r_squared < r2_thresh),
   ! (decide (min_slope ≤ slope) && decide (slope ≤ max_slope)))

/-- Single-character step of the Python replace of uppercase T by U in
seq.replace('T','U') (src/curve_fit.py line 27, src/curve_fit_2.py
line 34).  A one-character pattern replace is exactly a character map. -/
def replaceTU (c : Char) : Char := if c = 'T' then 'U' else c

/-- Whitespace as recognised by Python str.strip() with no argument,
restricted to the ASCII whitespace characters. -/
def pyIsSpace (c : Char) : Bool :=
  c = ' ' || c = '\t' || c = '\n' || c = '\r' || c = '\x0b' || c = '\x0c'

/-- Python str.strip(): drop leading and trailing whitespace only. -/
def pyStrip (l : List Char) : List Char :=
  ((l.dropWhile pyIsSpace).reverse.dropWhile pyIsSpace).reverse

/-- The sequence normalization line shared verbatim by both variants
(src/curve_fit.py line 27, src/curve_fit_2.py line 34):
seq.replace('T','U').replace('\n','').strip().upper(), i.e. first map
uppercase T to U, then delete every newline, then strip leading/trailing
whitespace, then upper-case (Char.toUpper models the ASCII case of
str.upper, enough for the nucleotide alphabet). -/
def normalizeSeq (l : List Char) : List Char :=
  (pyStrip ((l.map replaceTU).filter (fun c => c != '\n'))).map Char.toUpper

/-- Modelled from the library Bio.Data.IUPACData.unambiguous_rna_weights
table used by Bio.SeqUtils.molecular_weight with seq_type='RNA': the
per-residue monophosphate masses of the four unambiguous RNA letters;
any other character has no entry (KeyError, surfaced as ValueError). -/
def rna_weight (c : Char) : Option ℚ :=
  if c = 'A' then some 347.2212
  else if c = 'C' then some 323.1965
  else if c = 'G' then some 363.2206
  else if c = 'U' then some 324.1813
  else none

/-- Mass of water subtracted per phosphodiester bond by
Bio.SeqUtils.molecular_weight (non-monoisotopic default). -/
def water_mass : ℚ := 18.0153

/-- Modelled from the library Bio.SeqUtils.molecular_weight(seq,
seq_type='RNA') with default flags: sum of the per-letter weights minus
(len - 1) times the water mass; a letter outside the unambiguous RNA
alphabet raises ValueError, modelled as none. -/
def molecular_weight_rna (l : List Char) : Option ℚ := do
  let ws ← l.mapM rna_weight
  pure (ws.sum - ((l.length : ℚ) - 1) * water_mass)

/-- Function calc_base_copies_sequence from src/curve_fit.py lines 25-32:
normalize the sequence, compute its RNA molecular weight, then
copies = conc_ng * 1e-9 / mw * AVOGADRO; returns (copies, mw).  The
library ValueError propagates, modelled as none. -/
def calc_base_copies_sequence (seq : List Char) (conc_ng : ℚ) : Option (ℚ × ℚ) := do
  let mw ← molecular_weight_rna (normalizeSeq seq)
  let grams := conc_ng * 1e-9
  let moles := grams / mw
  let copies := moles * AVOGADRO
  pure (copies, mw)

/-- Function calc_sequence from src/curve_fit_2.py lines 33-38: the same
pipeline in the second variant, returning (moles * AVOGADRO, mw). -/
def calc_sequence (seq : List Char) (conc_ng : ℚ) : Option (ℚ × ℚ) := do
  let mw ← molecular_weight_rna (normalizeSeq seq)
  let grams := conc_ng * 1e-9
  let moles := grams / mw
  pure (moles * AVOGADRO, mw)

/-- Minimum of the Copies column, df_std['Copies'].min() as in
src/curve_fit_2.py line 112: a fold of min over the nonempty column
(the empty case is unreachable, the slider builds at least 2 rows). -/
def lodOf : List StandardPoint → ℚ
  | [] => 0
  | p :: rest => rest.foldl (fun m q => min m q.copies) p.copies

/-- Minimum of the Ct column, df_std['Ct'].min() as in
src/curve_fit_2.py line 181. -/
def ctMinOf : List StandardPoint → ℚ
  | [] => 0
  | p :: rest => rest.foldl (fun m q => min m q.ct) p.ct

/-- Maximum of the Ct column, df_std['Ct'].max() as in
src/curve_fit_2.py line 181. -/
def ctMaxOf : List StandardPoint → ℚ
  | [] => 0
  | p :: rest => rest.foldl (fun m q => max m q.ct) p.ct

noncomputable section

/-- Result record of the linear regression: the slope and intercept
fields of scipy.stats.linregress that the app consumes. -/
structure LinFit where
  slope : ℝ
  intercept : ℝ

/-- Mean of the x components (np.mean of the regressor column). -/
def xbarOf (ps : List (ℝ × ℝ)) : ℝ := (ps.map Prod.fst).sum / ps.length

/-- Mean of the y components. -/
def ybarOf (ps : List (ℝ × ℝ)) : ℝ := (ps.map Prod.snd).sum / ps.length

/-- Centered sum of cross products of the paired data. -/
def sxyOf (ps : List (ℝ × ℝ)) : ℝ :=
  (ps.map fun p => (p.1 - xbarOf ps) * (p.2 - ybarOf ps)).sum

/-- Centered sum of squares of the x components. -/
def sxxOf (ps : List (ℝ × ℝ)) : ℝ :=
  (ps.map fun p => (p.1 - xbarOf ps) ^ 2).sum

/-- Least-squares slope of the paired data. -/
def slopeOf (ps : List (ℝ × ℝ)) : ℝ := sxyOf ps / sxxOf ps

/-- Least-squares intercept of the paired data. -/
def interceptOf (ps : List (ℝ × ℝ)) : ℝ := ybarOf ps - slopeOf ps * xbarOf ps

/-- Modelled from the library scipy.stats.linregress(x, y), the call made
at src/curve_fit.py line 142 and src/curve_fit_2.py lines 110 and 140:
slope = centered cross sum / centered square sum, intercept =
mean y - slope * mean x.  It raises ValueError when x and y have
different lengths or all x values are identical; inputs with fewer than
2 points are likewise degenerate (scipy raises on empty input and yields
NaN, which ℝ cannot represent, on a single point) and are modelled as
the same error.  Floats are idealized as reals. -/
def linregress (xs ys : List ℝ) : Except Unit LinFit :=
  if xs.length ≠ ys.length then .error ()
  else if xs.length < 2 then .error ()
  else if ∀ a ∈ xs, ∀ b ∈ xs, a = b then .error ()
  else .ok ⟨slopeOf (xs.zip ys), interceptOf (xs.zip ys)⟩

/-- The x column of the fit: np.log10(df_std['Copies']) as in
src/curve_fit_2.py line 108 and src/curve_fit.py line 140. -/
def xvals (pts : List StandardPoint) : List ℝ :=
  pts.map fun p => Real.logb 10 (p.copies : ℝ)

/-- The y column of the fit: the Ct values as reals. -/
def yvals (pts : List StandardPoint) : List ℝ :=
  pts.map fun p => (p.ct : ℝ)

/-- The metrics block computed in src/curve_fit_2.py lines 108-112. -/
structure CurveFit where
  slope : ℝ
  intercept : ℝ
  efficiency_pct : ℝ
  lod_copies : ℚ

/-- Section 3 of src/curve_fit_2.py (lines 108-112): regress Ct on
log10(Copies), then eff = (10 ** (-1 / slope) - 1) * 100 and
lod = df_std['Copies'].min().  A ValueError from linregress propagates
(the app has no handler there).  The efficiency power is real rpow; at
slope = 0 the Lean convention -1 / 0 = 0 stands in for the float -inf —
either way the expression evaluates to a number rather than failing. -/
def fitStandards (pts : List StandardPoint) : Except Unit CurveFit :=
  match linregress (xvals pts) (yvals pts) with
  | .error e => .error e
  | .ok lf =>
    .ok ⟨lf.slope, lf.intercept, ((10 : ℝ) ^ (-1 / lf.slope) - 1) * 100, lodOf pts⟩

/-- An unknown-sample row as built in section 5 of src/curve_fit_2.py:
the computed copy number and whether the out-of-range warning fired. -/
structure UnknownResult where
  copies : ℝ
  out_of_range : Bool

/-- The unknown-sample computation of src/curve_fit_2.py lines 179-183
(src/curve_fit.py lines 173-174 computes the same copy value, without
the range warning): logn = (ctu - intercept) / slope, cu = 10 ** logn *
du, and the warning fires iff ctu < df_std['Ct'].min() or ctu >
df_std['Ct'].max(); the copy value is recorded in the row either way. -/
def quantifyUnknown (slope intercept : ℝ) (pts : List StandardPoint)
    (ctu du : ℚ) : UnknownResult :=
  let logn := ((ctu : ℝ) - intercept) / slope
  let cu := (10 : ℝ) ^ logn * (du : ℝ)
  ⟨cu, decide (ctu < ctMinOf pts ∨ ctMaxOf pts < ctu)⟩

/-- Sum of squared residuals of the line y = m x + b on paired data. -/
def ssrP (ps : List (ℝ × ℝ)) (m b : ℝ) : ℝ :=
  (ps.map fun p => (p.2 - (m * p.1 + b)) ^ 2).sum

/-- Sum of squared residuals on separate x and y columns. -/
def ssr (xs ys : List ℝ) (m b : ℝ) : ℝ := ssrP (xs.zip ys) m b

/-- One iteration of the bootstrap loop of src/curve_fit_2.py lines
129-144: resample rows with replacement (the drawn row indices are the
explicit randomness), keep rows with Copies > 0, skip the draw if fewer
than 2 remain, regress Ct on log10(Copies) of the kept rows, and skip
the draw on a ValueError. -/
def bootstrapFitOnce (pts : List StandardPoint) (idxs : List ℕ) :
    Option (ℝ × ℝ) :=
  let samp := idxs.filterMap fun i => pts[i]?
  let valid := samp.filter fun p => decide (0 < p.copies)
  if valid.length < 2 then none
  else match linregress (xvals valid) (yvals valid) with
    | .error _ => none
    | .ok lf => some (lf.slope, lf.intercept)

/-- Insertion step for sorting the bootstrap statistics ascending. -/
def insertLe (x : ℝ) : List ℝ → List ℝ
  | [] => [x]
  | y :: ys => if x ≤ y then x :: y :: ys else y :: insertLe x ys

/-- Ascending sort of a list of reals (the sort inside np.percentile;
any correct sort gives the same list because ℝ is totally ordered). -/
def sortReal (l : List ℝ) : List ℝ := l.foldr insertLe []

/-- Modelled from the library np.percentile(a, q) with the default
linear interpolation: position (n-1)*q/100 in the sorted data,
interpolating between the two bracketing order statistics. -/
def percentile (l : List ℝ) (q : ℝ) : ℝ :=
  let s := sortReal l
  let pos : ℝ := q / 100 * ((l.length : ℝ) - 1)
  let lo : ℕ := (Int.floor pos).toNat
  let frac : ℝ := pos - Int.floor pos
  s.getD lo 0 + frac * (s.getD (lo + 1) 0 - s.getD lo 0)

/-- The whole bootstrap block of src/curve_fit_2.py lines 128-153: 200
resampling iterations (the randomness of pandas DataFrame.sample, which
the source draws from the process-global generator, is passed explicitly
as the per-iteration lists of drawn row indices); if no iteration
produced a fit the app reports insufficient data (none), else the
2.5th and 97.5th percentiles of the recorded slopes and intercepts. -/
def bootstrapCIs (pts : List StandardPoint) (draws : ℕ → List ℕ) :
    Option ((ℝ × ℝ) × (ℝ × ℝ)) :=
  let boot := (List.range 200).filterMap fun k => bootstrapFitOnce pts (draws k)
  if boot.isEmpty then none
  else some ((percentile (boot.map Prod.fst) 2.5, percentile (boot.map Prod.fst) 97.5),
             (percentile (boot.map Prod.snd) 2.5, percentile (boot.map Prod.snd) 97.5))

end

/-- The nucleotide input alphabet for the case-insensitivity statement:
both cases of A, C, G, U, uppercase T, and whitespace.  Lowercase t is
deliberately absent: the source replaces T before upper-casing, so a
lowercase t survives the replace and is rejected by the RNA weight
table (see the C7 counterexample). -/
def nucleotideInput : List Char :=
  ['A', 'C', 'G', 'T', 'U', 'a', 'c', 'g', 'u', ' ', '\n']

/-- C1: for every conc_ng ≥ 0 and integer length_bp ≥ 1, both variants of
the length-based copy-number computation return exactly
conc_ng * 1e-9 / (length_bp * 650) * 6.022e23.  The source performs the
same operations in the same order as the formula, so the equality is
exact (it would hold operation-for-operation in double precision too;
here both sides are evaluated in exact rational arithmetic). -/
theorem c1_length_based_formula (conc_ng : ℚ) (length_bp : ℤ)
    (hc : 0 ≤ conc_ng) (hl : 1 ≤ length_bp) :
    calc_base_copies_ng_length conc_ng length_bp = spec_copies_formula conc_ng length_bp ∧
    calc_ng_length conc_ng length_bp = spec_copies_formula conc_ng length_bp :=
  ⟨rfl, rfl⟩

/-- Witness for C1 at conc_ng = 100, length_bp = 1000. -/
theorem c1_length_based_formula_witness :
    0 ≤ (100 : ℚ) ∧ 1 ≤ (1000 : ℤ) ∧
    (calc_base_copies_ng_length 100 1000 = spec_copies_formula 100 1000 ∧
     calc_ng_length 100 1000 = spec_copies_formula 100 1000) :=
  ⟨by norm_num, by norm_num, c1_length_based_formula 100 1000 (by norm_num) (by norm_num)⟩

/-- C5 counterexample: at conc_ng = -1, length_bp = 1000 the computation
does not fail with any error; it returns an ordinary (negative) number
in both source variants, refuting the claim that every conc_ng < 0 is
rejected with InvalidInput. -/
theorem c5_counterexample :
    calc_base_copies_ng_length (-1) 1000 < 0 ∧ calc_ng_length (-1) 1000 < 0 := by
  constructor <;>
    norm_num [calc_base_copies_ng_length, calc_ng_length, AVOGADRO, AVERAGE_BP_WEIGHT]

/-- C5 amended: the computation performs no input validation at all: for
every conc_ng < 0 (and any length_bp ≥ 1) it still returns the plain
formula value instead of failing.  The ranges conc_ng ≥ 0 and
length_bp ≥ 1 are enforced only by the UI widgets, not by these
functions. -/
theorem c5_amended_no_validation (conc_ng : ℚ) (length_bp : ℤ)
    (hc : conc_ng < 0) (hl : 1 ≤ length_bp) :
    calc_base_copies_ng_length conc_ng length_bp = spec_copies_formula conc_ng length_bp ∧
    calc_ng_length conc_ng length_bp = spec_copies_formula conc_ng length_bp :=
  ⟨rfl, rfl⟩

/-- Witness for the amended C5 at conc_ng = -1, length_bp = 1000. -/
theorem c5_amended_no_validation_witness :
    (-1 : ℚ) < 0 ∧ 1 ≤ (1000 : ℤ) ∧
    (calc_base_copies_ng_length (-1) 1000 = spec_copies_formula (-1) 1000 ∧
     calc_ng_length (-1) 1000 = spec_copies_formula (-1) 1000) :=
  ⟨by norm_num, by norm_num, c5_amended_no_validation (-1) 1000 (by norm_num) (by norm_num)⟩

/-- C10: the two source variants compute the same values: the
length-based functions agree on every input, and the sequence-based
functions agree (same copies, same molecular weight, same error
behaviour) on every input. -/
theorem c10_variants_extensionally_equal :
    (∀ (conc_ng : ℚ) (length_bp : ℤ),
      calc_base_copies_ng_length conc_ng length_bp = calc_ng_length conc_ng length_bp) ∧
    (∀ (seq : List Char) (conc_ng : ℚ),
      calc_base_copies_sequence seq conc_ng = calc_sequence seq conc_ng) :=
  ⟨fun _ _ => rfl, fun _ _ => rfl⟩

/-- C8: the low-R² warning fires iff r_squared is strictly below the
threshold, the slope warning fires iff the slope is strictly below the
minimum or strictly above the maximum, and the two checks are
independent: both can fire together. -/
theorem c8_quality_flags :
    (∀ r2 s mins maxs thr : ℚ,
      ((evaluate_quality r2 s mins maxs thr).1 = true ↔ r2 < thr) ∧
      ((evaluate_quality r2 s mins maxs thr).2 = true ↔ (s < mins ∨ maxs < s))) ∧
    (∃ r2 s mins maxs thr : ℚ, evaluate_quality r2 s mins maxs thr = (true, true)) := by
  refine ⟨fun r2 s mins maxs thr => ⟨?_, ?_⟩, ⟨0, 0, 1, 2, 1, by decide⟩⟩
  · simp [evaluate_quality]
  · simp [evaluate_quality, not_and_or, not_le]

/-- C6: for every base_copies > 0, dilution_factor > 1, n_points ≥ 2 and
index i < n_points, the built series has n_points rows in index order,
row i holds copies = base_copies / dilution_factor ^ i, and when no Ct
override is supplied its Ct is start_ct + i * ct_interval. -/
theorem c6_dilution_series (base factor : ℚ) (n : ℕ) (start_ct interval : ℚ)
    (overrides : ℕ → Option ℚ) (i : ℕ)
    (hb : 0 < base) (hf : 1 < factor) (hn : 2 ≤ n) (hi : i < n) :
    (buildStandards base factor n start_ct interval overrides).length = n ∧
    (buildStandards base factor n start_ct interval overrides)[i]? =
      some ⟨base / factor ^ i, (overrides i).getD (start_ct + (i : ℚ) * interval)⟩ := by
  constructor
  · simp [buildStandards]
  · simp [buildStandards, List.getElem?_range, hi]

/-- Witness for C6 at base = 100, factor = 10, n = 2, i = 1, no overrides. -/
theorem c6_dilution_series_witness :
    0 < (100 : ℚ) ∧ 1 < (10 : ℚ) ∧ 2 ≤ 2 ∧ 1 < 2 ∧
    ((buildStandards 100 10 2 9 3 (fun _ => none)).length = 2 ∧
     (buildStandards 100 10 2 9 3 (fun _ => none))[1]? =
       some ⟨100 / 10 ^ 1, (none : Option ℚ).getD (9 + (1 : ℚ) * 3)⟩) :=
  ⟨by norm_num, by norm_num, le_refl 2, by norm_num,
   c6_dilution_series 100 10 2 9 3 (fun _ => none) 1
     (by norm_num) (by norm_num) (le_refl 2) (by norm_num)⟩

/-- C9: the bootstrap is deterministic in the injected randomness: with
the random draws made explicit (the code's only nondeterminism is the
global generator consumed by DataFrame.sample, modelled as the
per-iteration index lists), two invocations on the same points with the
same draws produce identical slope and intercept intervals. -/
theorem c9_bootstrap_deterministic (pts : List StandardPoint)
    (draws1 draws2 : ℕ → List ℕ) (h : draws1 = draws2) :
    bootstrapCIs pts draws1 = bootstrapCIs pts draws2 := by
  rw [h]

/-- Witness for C9: the determinism theorem applied to a concrete series
and a concrete draw sequence. -/
theorem c9_bootstrap_deterministic_witness :
    bootstrapCIs [⟨1, 9⟩, ⟨10, 12⟩] (fun _ => [0, 1]) =
      bootstrapCIs [⟨1, 9⟩, ⟨10, 12⟩] (fun _ => [0, 1]) :=
  c9_bootstrap_deterministic [⟨1, 9⟩, ⟨10, 12⟩] (fun _ => [0, 1]) (fun _ => [0, 1]) rfl

/-- A left fold of min over a projected column is bounded by the
accumulator and by every projected element, and is either the
accumulator or one of the projected values. -/
theorem foldl_min_spec (f : StandardPoint → ℚ) :
    ∀ (r : List StandardPoint) (acc : ℚ),
      (List.foldl (fun m q => min m (f q)) acc r = acc ∨
        List.foldl (fun m q => min m (f q)) acc r ∈ r.map f) ∧
      List.foldl (fun m q => min m (f q)) acc r ≤ acc ∧
      ∀ q ∈ r, List.foldl (fun m q => min m (f q)) acc r ≤ f q := by
  intro r
  induction r with
  | nil => exact fun acc => ⟨Or.inl rfl, le_refl _, by simp⟩
  | cons p t ih =>
    intro acc
    obtain ⟨hmem, hle, hall⟩ := ih (min acc (f p))
    simp only [List.foldl_cons, List.map_cons]
    refine ⟨?_, hle.trans (min_le_left _ _), ?_⟩
    · rcases hmem with h | h
      · rcases min_choice acc (f p) with h' | h'
        · exact Or.inl (h.trans h')
        · exact Or.inr (by rw [h, h']; exact List.mem_cons_self _ _)
      · exact Or.inr (List.mem_cons_of_mem _ h)
    · intro q hq
      rcases List.mem_cons.mp hq with rfl | hq'
      · exact hle.trans (min_le_right _ _)
      · exact hall q hq'

/-- A left fold of max over a projected column dominates the accumulator
and every projected element, and is either the accumulator or one of
the projected values. -/
theorem foldl_max_spec (f : StandardPoint → ℚ) :
    ∀ (r : List StandardPoint) (acc : ℚ),
      (List.foldl (fun m q => max m (f q)) acc r = acc ∨
        List.foldl (fun m q => max m (f q)) acc r ∈ r.map f) ∧
      acc ≤ List.foldl (fun m q => max m (f q)) acc r ∧
      ∀ q ∈ r, f q ≤ List.foldl (fun m q => max m (f q)) acc r := by
  intro r
  induction r with
  | nil => exact fun acc => ⟨Or.inl rfl, le_refl _, by simp⟩
  | cons p t ih =>
    intro acc
    obtain ⟨hmem, hle, hall⟩ := ih (max acc (f p))
    simp only [List.foldl_cons, List.map_cons]
    refine ⟨?_, (le_max_left _ _).trans hle, ?_⟩
    · rcases hmem with h | h
      · rcases max_choice acc (f p) with h' | h'
        · exact Or.inl (h.trans h')
        · exact Or.inr (by rw [h, h']; exact List.mem_cons_self _ _)
      · exact Or.inr (List.mem_cons_of_mem _ h)
    · intro q hq
      rcases List.mem_cons.mp hq with rfl | hq'
      · exact (le_max_right _ _).trans hle
      · exact hall q hq'

/-- The Ct column fold ctMinOf of a nonempty series is the least Ct. -/
theorem ctMinOf_spec (pts : List StandardPoint) (h : pts ≠ []) :
    ctMinOf pts ∈ pts.map StandardPoint.ct ∧
      ∀ c ∈ pts.map StandardPoint.ct, ctMinOf pts ≤ c := by
  match pts with
  | [] => exact absurd rfl h
  | p :: t =>
    obtain ⟨hmem, hle, hall⟩ := foldl_min_spec StandardPoint.ct t p.ct
    simp only [ctMinOf, List.map_cons]
    refine ⟨?_, ?_⟩
    · rcases hmem with h' | h'
      · rw [h']; exact List.mem_cons_self _ _
      · exact List.mem_cons_of_mem _ h'
    · intro c hc
      rcases List.mem_cons.mp hc with rfl | hc'
      · exact hle
      · obtain ⟨q, hq, rfl⟩ := List.mem_map.mp hc'
        exact hall q hq

/-- The Ct column fold ctMaxOf of a nonempty series is the greatest Ct. -/
theorem ctMaxOf_spec (pts : List StandardPoint) (h : pts ≠ []) :
    ctMaxOf pts ∈ pts.map StandardPoint.ct ∧
      ∀ c ∈ pts.map StandardPoint.ct, c ≤ ctMaxOf pts := by
  match pts with
  | [] => exact absurd rfl h
  | p :: t =>
    obtain ⟨hmem, hle, hall⟩ := foldl_max_spec StandardPoint.ct t p.ct
    simp only [ctMaxOf, List.map_cons]
    refine ⟨?_, ?_⟩
    · rcases hmem with h' | h'
      · rw [h']; exact List.mem_cons_self _ _
      · exact List.mem_cons_of_mem _ h'
    · intro c hc
      rcases List.mem_cons.mp hc with rfl | hc'
      · exact hle
      · obtain ⟨q, hq, rfl⟩ := List.mem_map.mp hc'
        exact hall q hq

/-- The Copies column fold lodOf of a nonempty series is the least copy
count among the points. -/
theorem lodOf_spec (pts : List StandardPoint) (h : pts ≠ []) :
    lodOf pts ∈ pts.map StandardPoint.copies ∧
      ∀ c ∈ pts.map StandardPoint.copies, lodOf pts ≤ c := by
  match pts with
  | [] => exact absurd rfl h
  | p :: t =>
    obtain ⟨hmem, hle, hall⟩ := foldl_min_spec StandardPoint.copies t p.copies
    simp only [lodOf, List.map_cons]
    refine ⟨?_, ?_⟩
    · rcases hmem with h' | h'
      · rw [h']; exact List.mem_cons_self _ _
      · exact List.mem_cons_of_mem _ h'
    · intro c hc
      rcases List.mem_cons.mp hc with rfl | hc'
      · exact hle
      · obtain ⟨q, hq, rfl⟩ := List.mem_map.mp hc'
        exact hall q hq

/-- C2: for a curve with nonzero slope, any ct ≥ 0 and dilution factor
greater than 0, the unknown-sample computation returns copies =
10 ^ ((ct - intercept) / slope) * dilution_factor, and flags
out_of_range exactly when ct is strictly below the least Ct or strictly
above the greatest Ct among the standards; the copy value is returned
in either case (the copies field is always the formula value). -/
theorem c2_unknown_quantification (slope intercept : ℝ) (pts : List StandardPoint)
    (ctu du : ℚ) (hm : slope ≠ 0) (hct : 0 ≤ ctu) (hdu : 0 < du) (hne : pts ≠ []) :
    (quantifyUnknown slope intercept pts ctu du).copies
        = (10 : ℝ) ^ (((ctu : ℝ) - intercept) / slope) * (du : ℝ) ∧
    ∃ lo hi,
      lo ∈ pts.map StandardPoint.ct ∧ (∀ c ∈ pts.map StandardPoint.ct, lo ≤ c) ∧
      hi ∈ pts.map StandardPoint.ct ∧ (∀ c ∈ pts.map StandardPoint.ct, c ≤ hi) ∧
      ((quantifyUnknown slope intercept pts ctu du).out_of_range = true ↔
        (ctu < lo ∨ hi < ctu)) := by
  refine ⟨rfl, ctMinOf pts, ctMaxOf pts,
    (ctMinOf_spec pts hne).1, (ctMinOf_spec pts hne).2,
    (ctMaxOf_spec pts hne).1, (ctMaxOf_spec pts hne).2, ?_⟩
  simp [quantifyUnknown]

/-- Witness for C2 at slope = 1, intercept = 0, a single standard with
Ct 9, unknown ct = 2, dilution 1. -/
theorem c2_unknown_quantification_witness :
    (1 : ℝ) ≠ 0 ∧ 0 ≤ (2 : ℚ) ∧ 0 < (1 : ℚ) ∧ ([⟨1, 9⟩] : List StandardPoint) ≠ [] ∧
    ((quantifyUnknown 1 0 [⟨1, 9⟩] 2 1).copies
        = (10 : ℝ) ^ ((((2 : ℚ) : ℝ) - 0) / 1) * ((1 : ℚ) : ℝ) ∧
     ∃ lo hi,
       lo ∈ ([⟨1, 9⟩] : List StandardPoint).map StandardPoint.ct ∧
       (∀ c ∈ ([⟨1, 9⟩] : List StandardPoint).map StandardPoint.ct, lo ≤ c) ∧
       hi ∈ ([⟨1, 9⟩] : List StandardPoint).map StandardPoint.ct ∧
       (∀ c ∈ ([⟨1, 9⟩] : List StandardPoint).map StandardPoint.ct, c ≤ hi) ∧
       ((quantifyUnknown 1 0 [⟨1, 9⟩] 2 1).out_of_range = true ↔
         ((2 : ℚ) < lo ∨ hi < (2 : ℚ)))) :=
  ⟨one_ne_zero, by norm_num, by norm_num, by simp,
   c2_unknown_quantification 1 0 [⟨1, 9⟩] 2 1 one_ne_zero (by norm_num) (by norm_num)
     (by simp)⟩

/-- Expansion of the sum of residuals of the line y = m x + b. -/
theorem sum_sub_line (ps : List (ℝ × ℝ)) (m b : ℝ) :
    (ps.map fun p => p.2 - (m * p.1 + b)).sum
      = (ps.map Prod.snd).sum - m * (ps.map Prod.fst).sum - ps.length * b := by
  induction ps with
  | nil => simp
  | cons p t ih =>
    simp only [List.map_cons, List.sum_cons, List.length_cons, ih]
    push_cast
    ring

/-- Expansion of the sum of x-weighted residuals of the line y = m x + b. -/
theorem sum_sub_line_mul (ps : List (ℝ × ℝ)) (m b : ℝ) :
    (ps.map fun p => (p.2 - (m * p.1 + b)) * p.1).sum
      = (ps.map fun p => p.1 * p.2).sum - m * (ps.map fun p => p.1 ^ 2).sum
        - b * (ps.map Prod.fst).sum := by
  induction ps with
  | nil => simp
  | cons p t ih =>
    simp only [List.map_cons, List.sum_cons, ih]
    ring

/-- Expansion of a centered cross-product sum into raw sums. -/
theorem sum_centered_cross (ps : List (ℝ × ℝ)) (a b : ℝ) :
    (ps.map fun p => (p.1 - a) * (p.2 - b)).sum
      = (ps.map fun p => p.1 * p.2).sum - a * (ps.map Prod.snd).sum
        - b * (ps.map Prod.fst).sum + ps.length * (a * b) := by
  induction ps with
  | nil => simp
  | cons p t ih =>
    simp only [List.map_cons, List.sum_cons, List.length_cons, ih]
    push_cast
    ring

/-- Expansion of a centered square sum into raw sums. -/
theorem sum_centered_sq (ps : List (ℝ × ℝ)) (a : ℝ) :
    (ps.map fun p => (p.1 - a) ^ 2).sum
      = (ps.map fun p => p.1 ^ 2).sum - 2 * a * (ps.map Prod.fst).sum
        + ps.length * a ^ 2 := by
  induction ps with
  | nil => simp
  | cons p t ih =>
    simp only [List.map_cons, List.sum_cons, List.length_cons, ih]
    push_cast
    ring

/-- Decomposition of one sum of squared residuals about another line. -/
theorem ssrP_decomp (ps : List (ℝ × ℝ)) (m b mo bo : ℝ) :
    ssrP ps m b
      = ssrP ps mo bo
        + 2 * (mo - m) * (ps.map fun p => (p.2 - (mo * p.1 + bo)) * p.1).sum
        + 2 * (bo - b) * (ps.map fun p => p.2 - (mo * p.1 + bo)).sum
        + (ps.map fun p => ((mo - m) * p.1 + (bo - b)) ^ 2).sum := by
  induction ps with
  | nil => simp [ssrP]
  | cons p t ih =>
    simp only [ssrP, List.map_cons, List.sum_cons] at ih ⊢
    rw [ih]
    ring

/-- First normal equation: the least-squares residuals sum to zero. -/
theorem normal_eq_resid (ps : List (ℝ × ℝ)) (hn : (ps.length : ℝ) ≠ 0) :
    (ps.map fun p => p.2 - (slopeOf ps * p.1 + interceptOf ps)).sum = 0 := by
  rw [sum_sub_line]
  have hid : interceptOf ps = ybarOf ps - slopeOf ps * xbarOf ps := rfl
  rw [hid]
  unfold ybarOf xbarOf
  field_simp

/-- Second normal equation: the least-squares residuals are orthogonal
to the regressor. -/
theorem normal_eq_xresid (ps : List (ℝ × ℝ)) (hn : (ps.length : ℝ) ≠ 0)
    (hsxx : sxxOf ps ≠ 0) :
    (ps.map fun p => (p.2 - (slopeOf ps * p.1 + interceptOf ps)) * p.1).sum = 0 := by
  rw [sum_sub_line_mul]
  have key : ∀ m : ℝ,
      (ps.map fun p => p.1 * p.2).sum - m * (ps.map fun p => p.1 ^ 2).sum
          - (ybarOf ps - m * xbarOf ps) * (ps.map Prod.fst).sum
        = sxyOf ps - m * sxxOf ps := by
    intro m
    have hc := sum_centered_cross ps (xbarOf ps) (ybarOf ps)
    have hs := sum_centered_sq ps (xbarOf ps)
    unfold sxyOf sxxOf
    rw [hc, hs]
    unfold xbarOf ybarOf
    field_simp
    ring
  have hid : interceptOf ps = ybarOf ps - slopeOf ps * xbarOf ps := rfl
  rw [hid, key (slopeOf ps)]
  have hms : slopeOf ps * sxxOf ps = sxyOf ps := by
    unfold slopeOf
    field_simp
  rw [hms, sub_self]

/-- If two x values differ, the centered square sum is positive. -/
theorem sxx_pos (ps : List (ℝ × ℝ)) (hx : ∃ p ∈ ps, ∃ q ∈ ps, p.1 ≠ q.1) :
    0 < sxxOf ps := by
  obtain ⟨p, hp, q, hq, hpq⟩ := hx
  have key : ∀ r ∈ ps, r.1 ≠ xbarOf ps → 0 < sxxOf ps := by
    intro r hr hne
    have hnn : ∀ x ∈ ps.map fun p => (p.1 - xbarOf ps) ^ 2, 0 ≤ x := by
      intro x hxm
      obtain ⟨s, hs, rfl⟩ := List.mem_map.mp hxm
      exact sq_nonneg _
    have hmem : (r.1 - xbarOf ps) ^ 2 ∈ ps.map fun p => (p.1 - xbarOf ps) ^ 2 :=
      List.mem_map_of_mem _ hr
    have hpos : 0 < (r.1 - xbarOf ps) ^ 2 :=
      lt_of_le_of_ne (sq_nonneg _) (Ne.symm (pow_ne_zero 2 (sub_ne_zero.mpr hne)))
    exact lt_of_lt_of_le hpos (List.single_le_sum hnn _ hmem)
  by_cases h : p.1 = xbarOf ps
  · exact key q hq (fun hh => hpq (h.trans hh.symm))
  · exact key p hp h

/-- Optimality of the centered-sums least-squares line: no line has a
smaller sum of squared residuals. -/
theorem ols_optimal (ps : List (ℝ × ℝ)) (hn2 : 2 ≤ ps.length)
    (hx : ∃ p ∈ ps, ∃ q ∈ ps, p.1 ≠ q.1) (m b : ℝ) :
    ssrP ps (slopeOf ps) (interceptOf ps) ≤ ssrP ps m b := by
  have hn : (ps.length : ℝ) ≠ 0 := by
    have h0 : 0 < ps.length := by omega
    exact_mod_cast h0.ne'
  have hsxx : sxxOf ps ≠ 0 := (sxx_pos ps hx).ne'
  rw [ssrP_decomp ps m b (slopeOf ps) (interceptOf ps),
      normal_eq_xresid ps hn hsxx, normal_eq_resid ps hn]
  have hnn : 0 ≤ (ps.map fun p => ((slopeOf ps - m) * p.1 + (interceptOf ps - b)) ^ 2).sum :=
    List.sum_nonneg (by
      intro x hxm
      obtain ⟨s, hs, rfl⟩ := List.mem_map.mp hxm
      exact sq_nonneg _)
  linarith

/-- Every element of the first column of a zip of equal-length lists is
the first component of some pair of the zip. -/
theorem mem_zip_fst (xs ys : List ℝ) (hlen : xs.length = ys.length)
    (a : ℝ) (ha : a ∈ xs) : ∃ p ∈ xs.zip ys, p.1 = a := by
  obtain ⟨n, rfl⟩ := List.mem_iff_get.mp ha
  have hn : (n : ℕ) < (xs.zip ys).length := by
    rw [List.length_zip, ← hlen, min_self]
    exact n.isLt
  refine ⟨(xs.zip ys).get ⟨n, hn⟩, List.get_mem _ _ hn, ?_⟩
  rw [List.get_zip]

/-- On a series with at least two points and two distinct log10 copy
values, the modelled linregress call of section 3 succeeds and returns
the centered-sums least-squares line. -/
theorem linregress_fit_eq (pts : List StandardPoint) (h2 : 2 ≤ pts.length)
    (hdist : ∃ p ∈ pts, ∃ q ∈ pts,
      Real.logb 10 (p.copies : ℝ) ≠ Real.logb 10 (q.copies : ℝ)) :
    linregress (xvals pts) (yvals pts)
      = .ok ⟨slopeOf ((xvals pts).zip (yvals pts)),
             interceptOf ((xvals pts).zip (yvals pts))⟩ := by
  have hlen : (xvals pts).length = (yvals pts).length := by simp [xvals, yvals]
  have hlen2 : ¬ ((xvals pts).length < 2) := by
    simp only [xvals, List.length_map]
    omega
  have hne : ¬ (∀ a ∈ xvals pts, ∀ b ∈ xvals pts, a = b) := by
    intro hall
    obtain ⟨p, hp, q, hq, hpq⟩ := hdist
    exact hpq (hall _ (List.mem_map_of_mem _ hp) _ (List.mem_map_of_mem _ hq))
  unfold linregress
  rw [if_neg (not_ne_iff.mpr hlen), if_neg hlen2, if_neg hne]

/-- C3: on at least 2 points with positive copies and at least 2
distinct log10(copies) values, the fit succeeds and returns the
ordinary-least-squares line for Ct against log10(copies) (its sum of
squared residuals is minimal among all lines), an efficiency equal to
(10 ^ (-1/slope) - 1) * 100, and a limit of detection equal to the
minimum of the input copies. -/
theorem c3_fit_is_ols (pts : List StandardPoint) (h2 : 2 ≤ pts.length)
    (hpos : ∀ p ∈ pts, 0 < p.copies)
    (hdist : ∃ p ∈ pts, ∃ q ∈ pts,
      Real.logb 10 (p.copies : ℝ) ≠ Real.logb 10 (q.copies : ℝ)) :
    ∃ r, fitStandards pts = .ok r ∧
      (∀ m b, ssr (xvals pts) (yvals pts) r.slope r.intercept
        ≤ ssr (xvals pts) (yvals pts) m b) ∧
      r.efficiency_pct = ((10 : ℝ) ^ (-1 / r.slope) - 1) * 100 ∧
      r.lod_copies ∈ pts.map StandardPoint.copies ∧
      (∀ c ∈ pts.map StandardPoint.copies, r.lod_copies ≤ c) := by
  have hfit := linregress_fit_eq pts h2 hdist
  have hlen : (xvals pts).length = (yvals pts).length := by simp [xvals, yvals]
  have hzlen : 2 ≤ ((xvals pts).zip (yvals pts)).length := by
    rw [List.length_zip, ← hlen, min_self]
    simpa [xvals] using h2
  have hzx : ∃ p ∈ (xvals pts).zip (yvals pts),
      ∃ q ∈ (xvals pts).zip (yvals pts), p.1 ≠ q.1 := by
    obtain ⟨p, hp, q, hq, hpq⟩ := hdist
    obtain ⟨pp, hppm, hppe⟩ :=
      mem_zip_fst _ _ hlen _ (List.mem_map_of_mem (fun r => Real.logb 10 (r.copies : ℝ)) hp)
    obtain ⟨qq, hqqm, hqqe⟩ :=
      mem_zip_fst _ _ hlen _ (List.mem_map_of_mem (fun r => Real.logb 10 (r.copies : ℝ)) hq)
    exact ⟨pp, hppm, qq, hqqm, by rw [hppe, hqqe]; exact hpq⟩
  have hne : pts ≠ [] := by
    intro h
    rw [h] at h2
    simp at h2
  refine ⟨⟨slopeOf ((xvals pts).zip (yvals pts)),
           interceptOf ((xvals pts).zip (yvals pts)),
           ((10 : ℝ) ^ (-1 / slopeOf ((xvals pts).zip (yvals pts))) - 1) * 100,
           lodOf pts⟩, ?_, ?_, rfl, (lodOf_spec pts hne).1, (lodOf_spec pts hne).2⟩
  · unfold fitStandards
    rw [hfit]
  · intro m b
    exact ols_optimal ((xvals pts).zip (yvals pts)) hzlen hzx m b

/-- Witness for C3 on the two standards (copies 1, Ct 9) and
(copies 10, Ct 12). -/
theorem c3_fit_is_ols_witness :
    2 ≤ ([⟨1, 9⟩, ⟨10, 12⟩] : List StandardPoint).length ∧
    (∀ p ∈ ([⟨1, 9⟩, ⟨10, 12⟩] : List StandardPoint), 0 < p.copies) ∧
    (∃ p ∈ ([⟨1, 9⟩, ⟨10, 12⟩] : List StandardPoint),
      ∃ q ∈ ([⟨1, 9⟩, ⟨10, 12⟩] : List StandardPoint),
        Real.logb 10 (p.copies : ℝ) ≠ Real.logb 10 (q.copies : ℝ)) ∧
    (∃ r, fitStandards [⟨1, 9⟩, ⟨10, 12⟩] = .ok r ∧
      (∀ m b, ssr (xvals [⟨1, 9⟩, ⟨10, 12⟩]) (yvals [⟨1, 9⟩, ⟨10, 12⟩]) r.slope r.intercept
        ≤ ssr (xvals [⟨1, 9⟩, ⟨10, 12⟩]) (yvals [⟨1, 9⟩, ⟨10, 12⟩]) m b) ∧
      r.efficiency_pct = ((10 : ℝ) ^ (-1 / r.slope) - 1) * 100 ∧
      r.lod_copies ∈ ([⟨1, 9⟩, ⟨10, 12⟩] : List StandardPoint).map StandardPoint.copies ∧
      (∀ c ∈ ([⟨1, 9⟩, ⟨10, 12⟩] : List StandardPoint).map StandardPoint.copies,
        r.lod_copies ≤ c)) := by
  have hdist : ∃ p ∈ ([⟨1, 9⟩, ⟨10, 12⟩] : List StandardPoint),
      ∃ q ∈ ([⟨1, 9⟩, ⟨10, 12⟩] : List StandardPoint),
        Real.logb 10 (p.copies : ℝ) ≠ Real.logb 10 (q.copies : ℝ) := by
    refine ⟨⟨1, 9⟩, by simp, ⟨10, 12⟩, by simp, ?_⟩
    show Real.logb 10 ((1 : ℚ) : ℝ) ≠ Real.logb 10 ((10 : ℚ) : ℝ)
    have h1 : Real.logb 10 (((1 : ℚ) : ℝ)) = 0 := by
      rw [Rat.cast_one, Real.logb_one]
    have h10 : Real.logb 10 (((10 : ℚ) : ℝ)) = 1 := by
      have hc : ((10 : ℚ) : ℝ) = 10 := by norm_num
      rw [hc]
      exact Real.logb_self_eq_one (by norm_num)
    rw [h1, h10]
    norm_num
  exact ⟨by norm_num, by decide, hdist,
    c3_fit_is_ols [⟨1, 9⟩, ⟨10, 12⟩] (by norm_num) (by decide) hdist⟩

/-- C4 amended: in the source, fitting fails (the scipy ValueError
propagates uncaught) exactly when the series has fewer than 2 points or
all points share the same log10(copies); a fitted slope of 0 is NOT an
error: the efficiency expression is still evaluated and a fit record is
returned (see the counterexample). -/
theorem c4_amended_error_conditions (pts : List StandardPoint) :
    fitStandards pts = .error () ↔
      (pts.length < 2 ∨ ∀ p ∈ pts, ∀ q ∈ pts,
        Real.logb 10 (p.copies : ℝ) = Real.logb 10 (q.copies : ℝ)) := by
  have hlen : (xvals pts).length = (yvals pts).length := by simp [xvals, yvals]
  have hxlen : (xvals pts).length = pts.length := by simp [xvals]
  unfold fitStandards linregress
  rw [if_neg (not_ne_iff.mpr hlen)]
  by_cases h2 : (xvals pts).length < 2
  · rw [if_pos h2]
    exact iff_of_true rfl (Or.inl (by omega))
  · rw [if_neg h2]
    by_cases h3 : ∀ a ∈ xvals pts, ∀ b ∈ xvals pts, a = b
    · rw [if_pos h3]
      refine iff_of_true rfl (Or.inr ?_)
      intro p hp q hq
      exact h3 _ (List.mem_map_of_mem _ hp) _ (List.mem_map_of_mem _ hq)
    · rw [if_neg h3]
      refine iff_of_false (by simp) ?_
      rintro (hlt | hall)
      · omega
      · apply h3
        intro a ha b hb
        obtain ⟨p, hp, rfl⟩ := List.mem_map.mp ha
        obtain ⟨q, hq, rfl⟩ := List.mem_map.mp hb
        exact hall p hp q hq

/-- C4 counterexample: the two standards (copies 1, Ct 5) and
(copies 10, Ct 5) have distinct log10(copies) but identical Ct, so the
fitted slope is 0 — and the fit does NOT fail: it returns the record
with slope 0, intercept 5, a numeric efficiency and lod 1, refuting the
claim that a zero slope produces a DegenerateInput failure and no
numeric metrics.  (In the float code the efficiency at slope 0 is
(10 ** (-1/0.0) - 1) * 100 = -100.0 via -inf; in this real-valued model
-1/0 = 0 gives the value 0.  Either way a number is produced.) -/
theorem c4_counterexample_slope_zero :
    fitStandards [⟨1, 5⟩, ⟨10, 5⟩] = .ok ⟨0, 5, 0, 1⟩ := by
  have h1 : Real.logb 10 (((1 : ℚ) : ℝ)) = 0 := by
    rw [Rat.cast_one, Real.logb_one]
  have h10 : Real.logb 10 (((10 : ℚ) : ℝ)) = 1 := by
    have hc : ((10 : ℚ) : ℝ) = 10 := by norm_num
    rw [hc]
    exact Real.logb_self_eq_one (by norm_num)
  have hdist : ∃ p ∈ ([⟨1, 5⟩, ⟨10, 5⟩] : List StandardPoint),
      ∃ q ∈ ([⟨1, 5⟩, ⟨10, 5⟩] : List StandardPoint),
        Real.logb 10 (p.copies : ℝ) ≠ Real.logb 10 (q.copies : ℝ) := by
    refine ⟨⟨1, 5⟩, by simp, ⟨10, 5⟩, by simp, ?_⟩
    show Real.logb 10 ((1 : ℚ) : ℝ) ≠ Real.logb 10 ((10 : ℚ) : ℝ)
    rw [h1, h10]
    norm_num
  have hfit := linregress_fit_eq [⟨1, 5⟩, ⟨10, 5⟩] (by norm_num) hdist
  have hx : xvals [⟨1, 5⟩, ⟨10, 5⟩] = [0, 1] := by
    simp [xvals, h1, h10]
  have hy : yvals [⟨1, 5⟩, ⟨10, 5⟩] = [5, 5] := by
    norm_num [yvals]
  have hps : (xvals [⟨1, 5⟩, ⟨10, 5⟩]).zip (yvals [⟨1, 5⟩, ⟨10, 5⟩])
      = [((0 : ℝ), (5 : ℝ)), (1, 5)] := by
    rw [hx, hy]
    rfl
  have hslope : slopeOf [((0 : ℝ), (5 : ℝ)), (1, 5)] = 0 := by
    unfold slopeOf sxyOf sxxOf xbarOf ybarOf
    norm_num
  have hint : interceptOf [((0 : ℝ), (5 : ℝ)), (1, 5)] = 5 := by
    unfold interceptOf
    rw [hslope]
    unfold ybarOf
    norm_num
  unfold fitStandards
  rw [hfit, hps, hslope, hint]
  have heff : ((10 : ℝ) ^ (-1 / (0 : ℝ)) - 1) * 100 = 0 := by
    rw [div_zero, Real.rpow_zero]
    norm_num
  have hlod : lodOf [⟨1, 5⟩, ⟨10, 5⟩] = 1 := by decide
  show (Except.ok (CurveFit.mk 0 5 (((10 : ℝ) ^ (-1 / (0 : ℝ)) - 1) * 100)
        (lodOf [⟨1, 5⟩, ⟨10, 5⟩])) : Except Unit CurveFit)
      = Except.ok (CurveFit.mk 0 5 0 1)
  rw [heff, hlod]

/-- dropWhile only inspects members of the list, so pointwise equal
predicates drop the same prefix. -/
theorem dropWhile_congr_mem (p q : Char → Bool) :
    ∀ l : List Char, (∀ a ∈ l, p a = q a) → l.dropWhile p = l.dropWhile q := by
  intro l
  induction l with
  | nil => intro _; rfl
  | cons a t ih =>
    intro h
    simp only [List.dropWhile_cons]
    rw [h a (List.mem_cons_self _ _)]
    by_cases hq : q a = true
    · rw [if_pos hq, if_pos hq]
      exact ih (fun b hb => h b (List.mem_cons_of_mem _ hb))
    · rw [if_neg hq, if_neg hq]

/-- pyStrip commutes with the upper-casing map as long as upper-casing
does not change whether the involved characters are whitespace. -/
theorem pyStrip_map_toUpper (F : List Char)
    (hsp : ∀ c ∈ F, pyIsSpace (Char.toUpper c) = pyIsSpace c) :
    pyStrip (F.map Char.toUpper) = (pyStrip F).map Char.toUpper := by
  unfold pyStrip
  rw [List.dropWhile_map,
      dropWhile_congr_mem (pyIsSpace ∘ Char.toUpper) pyIsSpace F (fun c hc => hsp c hc),
      ← List.map_reverse, List.dropWhile_map,
      dropWhile_congr_mem (pyIsSpace ∘ Char.toUpper) pyIsSpace
        ((F.dropWhile pyIsSpace).reverse)
        (fun c hc => hsp c
          (List.Sublist.mem (List.mem_reverse.mp hc) (List.dropWhile_sublist _))),
      ← List.map_reverse]

/-- Upper-casing the raw input before the normalization pipeline gives
the same normalized sequence, provided every input character is in the
nucleotide alphabet without a lowercase t. -/
theorem normalizeSeq_map_toUpper (l : List Char) (h : ∀ c ∈ l, c ∈ nucleotideInput) :
    normalizeSeq (l.map Char.toUpper) = normalizeSeq l := by
  have key1 : ∀ a ∈ nucleotideInput,
      replaceTU (Char.toUpper a) = Char.toUpper (replaceTU a) := by decide
  have key2 : ∀ a ∈ nucleotideInput,
      ((Char.toUpper (replaceTU a)) != '\n') = ((replaceTU a) != '\n') := by decide
  have key3 : ∀ a ∈ nucleotideInput,
      pyIsSpace (Char.toUpper (replaceTU a)) = pyIsSpace (replaceTU a) := by decide
  have key4 : ∀ a ∈ nucleotideInput,
      Char.toUpper (Char.toUpper (replaceTU a)) = Char.toUpper (replaceTU a) := by decide
  have hmr : ∀ c ∈ l.map replaceTU, ∃ a, a ∈ nucleotideInput ∧ replaceTU a = c := by
    intro c hc
    obtain ⟨a, ha, rfl⟩ := List.mem_map.mp hc
    exact ⟨a, h a ha, rfl⟩
  unfold normalizeSeq
  have h1 : (l.map Char.toUpper).map replaceTU = (l.map replaceTU).map Char.toUpper := by
    rw [List.map_map, List.map_map]
    apply List.map_congr_left
    intro a ha
    show replaceTU (Char.toUpper a) = Char.toUpper (replaceTU a)
    exact key1 a (h a ha)
  rw [h1, List.filter_map]
  have h2 : (l.map replaceTU).filter ((fun c => c != '\n') ∘ Char.toUpper)
      = (l.map replaceTU).filter (fun c => c != '\n') := by
    apply List.filter_congr
    intro c hc
    obtain ⟨a, ha, rfl⟩ := hmr c hc
    exact key2 a ha
  rw [h2]
  have h3 : pyStrip (((l.map replaceTU).filter (fun c => c != '\n')).map Char.toUpper)
      = (pyStrip ((l.map replaceTU).filter (fun c => c != '\n'))).map Char.toUpper := by
    apply pyStrip_map_toUpper
    intro c hc
    obtain ⟨a, ha, rfl⟩ := hmr c (List.mem_of_mem_filter hc)
    exact key3 a ha
  rw [h3, List.map_map]
  apply List.map_congr_left
  intro c hc
  have hc' : c ∈ l.map replaceTU := by
    have hstrip : c ∈ (l.map replaceTU).filter (fun c => c != '\n') := by
      unfold pyStrip at hc
      exact List.Sublist.mem
        (List.mem_reverse.mp
          (List.Sublist.mem (List.mem_reverse.mp hc) (List.dropWhile_sublist _)))
        (List.dropWhile_sublist _)
    exact List.mem_of_mem_filter hstrip
  obtain ⟨a, ha, rfl⟩ := hmr c hc'
  show Char.toUpper (Char.toUpper (replaceTU a)) = Char.toUpper (replaceTU a)
  exact key4 a ha

/-- C7 counterexample: the uppercase input ACGT is accepted by both
sequence functions, but its lowercase variant acgt is rejected: the
replace of T by U runs before the upper-casing, so the lowercase t
survives the replace, is upper-cased to T, and the RNA weight table has
no entry for T.  Changing the letter case of the input therefore does
not preserve the result, refuting the claimed case-insensitivity. -/
theorem c7_counterexample_lowercase_t :
    (calc_sequence ['A', 'C', 'G', 'T'] 100).isSome = true ∧
    calc_sequence ['a', 'c', 'g', 't'] 100 = none ∧
    (calc_base_copies_sequence ['A', 'C', 'G', 'T'] 100).isSome = true ∧
    calc_base_copies_sequence ['a', 'c', 'g', 't'] 100 = none := by decide

/-- C7 amended: the result is computed on the input after replacing
uppercase T by U, then deleting newlines and stripping leading/trailing
whitespace, then upper-casing — in that order; because the T replacement
runs before the upper-casing, changing letter case preserves the molar
mass and copy number only for inputs containing no lowercase t (both
variants, and both accepted and rejected inputs, behave identically
under upper-casing then). -/
theorem c7_amended_case_insensitive_no_t (l : List Char) (conc_ng : ℚ)
    (h : ∀ c ∈ l, c ∈ nucleotideInput) :
    calc_base_copies_sequence (l.map Char.toUpper) conc_ng
        = calc_base_copies_sequence l conc_ng ∧
    calc_sequence (l.map Char.toUpper) conc_ng = calc_sequence l conc_ng := by
  have hn := normalizeSeq_map_toUpper l h
  constructor
  · unfold calc_base_copies_sequence
    rw [hn]
  · unfold calc_sequence
    rw [hn]

/-- Witness for the amended C7 on the lowercase input acgu. -/
theorem c7_amended_case_insensitive_no_t_witness :
    (∀ c ∈ (['a', 'c', 'g', 'u'] : List Char), c ∈ nucleotideInput) ∧
    (calc_base_copies_sequence ((['a', 'c', 'g', 'u'] : List Char).map Char.toUpper) 100
        = calc_base_copies_sequence ['a', 'c', 'g', 'u'] 100 ∧
     calc_sequence ((['a', 'c', 'g', 'u'] : List Char).map Char.toUpper) 100
        = calc_sequence ['a', 'c', 'g', 'u'] 100) :=
  ⟨by decide, c7_amended_case_insensitive_no_t ['a', 'c', 'g', 'u'] 100 (by decide)⟩
